import Mathlib

/-!
Shallow embedding of gemnasium/logrus-postgresql-hook (src/postgresql_hook.go,
the current version, i.e. the second file in that concatenation: the one whose
AsyncHook carries `buf`, `flush`, `Ticker` and a `filters` list).

The pure part (field merging, filter chain, levels, blacklist) is translated
function by function.  The asynchronous part (AsyncHook.Fire, Flush, the
background `fire` goroutine) is translated as a labelled transition system:
each select alternative of the committer loop, each producer call and the
Flush handshake become events, and the Go channel blocking discipline becomes
an event being disabled (the step function returns `none`).

Machine words do not occur in the relevant code; counters are modelled as Nat.
-/

/-- Logrus logging levels, in logrus's order (PanicLevel = 0 … TraceLevel = 6). -/
inductive Level where
  | panic
  | fatal
  | error
  | warn
  | info
  | debug
  | trace
deriving DecidableEq

/-- A field value stored in an entry's Data map (Go `interface{}`).
`errVal msg m` is a value implementing Go's `error` interface with message
`msg`; `m` records whether it also implements `json.Marshaler`.
`wrapped` is the serializable wrapper produced by `newMarshalableError`.
`str` and `intV` stand for ordinary non-error values. -/
inductive Value where
  | str (s : String)
  | intV (n : Int)
  | errVal (msg : String) (marshaler : Bool)
  | wrapped (msg : String)
deriving DecidableEq

/-- Go type assertion `v.(error)`: does the value implement `error`? -/
def Value.isError : Value → Bool
  | .errVal _ _ => true
  | _ => false

/-- Go type assertion `v.(json.Marshaler)`: does the value implement
`json.Marshaler`? -/
def Value.isMarshaler : Value → Bool
  | .errVal _ m => m
  | _ => false

/-- The message carried by an error value (`error.Error()` in Go). -/
def Value.errMsg : Value → String
  | .errVal m _ => m
  | .wrapped m => m
  | _ => ""

/-- A Go `map[string]interface{}` modelled as an association list whose
operations keep keys unique (insert replaces an existing binding). -/
abbrev Fields := List (String × Value)

/-- Map lookup `m[k]` (first binding wins; the operations below keep keys
unique, matching Go map semantics). -/
def findF : Fields → String → Option Value
  | [], _ => none
  | (k1, v1) :: rest, k => if k1 = k then some v1 else findF rest k

/-- Map write `m[k] = v`: replace the binding if the key is present,
append it otherwise. -/
def insertR : Fields → String → Value → Fields
  | [], k, v => [(k, v)]
  | (k1, v1) :: rest, k, v =>
      if k1 = k then (k, v) :: rest else (k1, v1) :: insertR rest k v

/-- Go `delete(m, k)`. -/
def eraseKey : Fields → String → Fields
  | [], _ => []
  | (k1, v1) :: rest, k =>
      if k1 = k then eraseKey rest k else (k1, v1) :: eraseKey rest k

/-- The loop `for _, name := range blacklist { delete(entry.Data, name) }`
of blackListFilter (src/postgresql_hook.go lines 388-392). -/
def eraseAll : Fields → List String → Fields
  | fs, [] => fs
  | fs, n :: rest => eraseAll (eraseKey fs n) rest

/-- The key list of a field mapping. -/
def keysF (fs : Fields) : List String := fs.map Prod.fst

/-- logrus.ErrorKey. -/
def errorKey : String := "error"

/-- Modelled from the spec: `newMarshalableError` is called at
src/postgresql_hook.go line 278 but defined in a repository file that is not
under src/.  Per the spec (section 4.1) it wraps an error-like value in "a
serializable representation (message + stack/context)"; we model it as a
wrapper carrying the error's message. -/
def newMarshalableError (v : Value) : Value := .wrapped v.errMsg

/-- logrus.Entry as used by the hook: Logger (opaque pointer, modelled by an
id), Data, Time, Level, Caller, Message (src copies exactly these fields at
lines 283-290). -/
structure Entry where
  logger : Nat
  data : Fields
  time : Nat
  level : Level
  caller : Option String
  message : String
deriving DecidableEq

/-- The filter type (src line 208): `type filter func(*logrus.Entry) *logrus.Entry`;
a nil result (the discard marker) is `none`. -/
abbrev filter := Entry → Option Entry

/-- The Hook structure (src lines 171-177).  `db`, `mu` and `InsertFunc` are
external resources or are modelled at the call sites. -/
structure Hook where
  Extra : Fields
  filters : List filter

/-- The first merge loop of newEntry (src lines 269-271):
`for k, v := range hook.Extra { data[k] = v }`. -/
def copyExtra : Fields → Fields → Fields
  | acc, [] => acc
  | acc, (k, v) :: rest => copyExtra (insertR acc k v) rest

/-- The second merge loop of newEntry (src lines 272-281):
`data[k] = v`, then, when the key is logrus.ErrorKey and the value is an
error that is not a json.Marshaler, `data[k] = newMarshalableError(asError)`. -/
def mergeData : Fields → Fields → Fields
  | acc, [] => acc
  | acc, (k, v) :: rest =>
      let acc1 := insertR acc k v
      let acc2 :=
        if k = errorKey ∧ v.isError = true ∧ v.isMarshaler = false then
          insertR acc1 k (newMarshalableError v)
        else acc1
      mergeData acc2 rest

/-- The full merge of newEntry (src lines 266-281): start from an empty map,
copy the extras, then overlay the entry's own data. -/
def mergeFields (extra data : Fields) : Fields :=
  mergeData (copyExtra [] extra) data

/-- The value the merge stores for a key/value pair coming from the entry's
own Data: the value itself, except that an opaque error under logrus.ErrorKey
is wrapped (src lines 273-280). -/
def adjustVal (k : String) (v : Value) : Value :=
  if k = errorKey ∧ v.isError = true ∧ v.isMarshaler = false then
    newMarshalableError v
  else v

/-- The merged (pre-filter) entry newEntry builds (src lines 283-290): all
fields copied from the argument, Data replaced by the merged map. -/
def mergeEntry (hook : Hook) (entry : Entry) : Entry :=
  { entry with data := mergeFields hook.Extra entry.data }

/-- The filter loop of newEntry (src lines 293-298): apply each filter to the
result of the previous one; stop at the first nil. -/
def applyFilters : List filter → Entry → Option Entry
  | [], e => some e
  | f :: fs, e =>
      match f e with
      | none => none
      | some e1 => applyFilters fs e1

/-- Hook.newEntry (src lines 261-300). -/
def Hook.newEntry (hook : Hook) (entry : Entry) : Option Entry :=
  applyFilters hook.filters (mergeEntry hook entry)

/-- Hook.Levels (src lines 303-311). -/
def Hook.Levels (_hook : Hook) : List Level :=
  [.fatal, .error, .warn, .info, .debug]

/-- Hook.AddFilter (src lines 383-385). -/
def Hook.AddFilter (hook : Hook) (fn : filter) : Hook :=
  { hook with filters := hook.filters ++ [fn] }

/-- blackListFilter (src lines 387-394), read functionally: it returns the
entry it was given with the blacklisted keys deleted from its Data, and it
never returns nil.  (Its in-place mutation of the Data map is modelled
separately by `blackListFilterH` in the heap model below.) -/
def blackListFilter (blacklist : List String) : filter :=
  fun entry => some { entry with data := eraseAll entry.data blacklist }

/-- Hook.Blacklist (src lines 316-318). -/
def Hook.Blacklist (hook : Hook) (b : List String) : Hook :=
  hook.AddFilter (blackListFilter b)

/-- Synchronous Hook.Fire (src lines 235-243).  The sink is the list of
entries handed to InsertFunc; `ierr` is the environment-chosen result of the
underlying db.Exec, returned to the caller. -/
def Hook.Fire (hook : Hook) (sink : List Entry) (ierr : Option String)
    (entry : Entry) : List Entry × Option String :=
  match hook.newEntry entry with
  | none => (sink, none)
  | some ne => (sink ++ [ne], ierr)

/-- Control location of the background committer goroutine
(AsyncHook.fire, src lines 329-376):
`idle` — about to call db.Begin() (line 332);
`waitRetry` — Begin failed, waiting one tick before retrying (lines 336-339);
`draining` — inside the select loop (lines 344-364);
`terminated` — returned after a flush (line 362). -/
inductive Phase where
  | idle
  | waitRetry
  | draining
  | terminated
deriving DecidableEq

/-- State shared between the producers, Flush and the committer goroutine:
`queue` — the contents of the `buf` channel (FIFO);
`outstanding` — the wait-group counter `wg`;
`accepted` — ghost: entries pushed by AsyncHook.Fire, in order;
`attempted` — ghost: entries handed to InsertFunc by the committer, in order;
`openTx` — `some n` iff a transaction is open with `numEntries = n`;
`commits` — number of txn.Commit() calls made;
`errLog` — number of lines written to stderr;
`finalCommit` — whether the flush-path Commit of line 357 has run;
`tickerPeriod` — the period of `Ticker` in milliseconds
(300 at construction, src line 228). -/
structure CState where
  queue : List Entry
  outstanding : Nat
  accepted : List Entry
  attempted : List Entry
  openTx : Option Nat
  commits : Nat
  errLog : Nat
  phase : Phase
  finalCommit : Bool
  tickerPeriod : Nat
deriving DecidableEq

/-- AsyncHook.Fire (src lines 248-257): run newEntry; if nil, do nothing and
return nil; otherwise wg.Add(1), push onto buf, return nil. -/
def AsyncHook.Fire (hook : Hook) (s : CState) (entry : Entry) :
    CState × Option String :=
  match hook.newEntry entry with
  | none => (s, none)
  | some ne =>
      ({ s with
          outstanding := s.outstanding + 1
          queue := s.queue ++ [ne]
          accepted := s.accepted ++ [ne] }, none)

/-- Progress of a Flush() call (src lines 322-326):
`notStarted` — Flush not called;
`reqReady` — wg.Wait() has returned (the counter reached zero), the caller is
sending on the `flush` channel;
`done` — the acknowledgement was received, Flush returned. -/
inductive FlusherPhase where
  | notStarted
  | reqReady
  | done
deriving DecidableEq

/-- Whole-system state: the shared committer state plus the Flush caller. -/
structure SysState where
  cs : CState
  flusher : FlusherPhase
deriving DecidableEq

/-- One scheduling event of the system.  Booleans are the environment-chosen
outcomes of the corresponding database calls:
`fire e` — a producer calls AsyncHook.Fire with entry `e`;
`beginRes ok` — db.Begin() (line 332) returns, succeeding iff `ok`;
`recvEntry ok` — the select takes `entry := <-hook.buf` (line 346) and
InsertFunc returns nil iff `ok`;
`tick ok` — the select (or the begin-retry wait) takes `<-hook.Ticker.C`;
`ok` is the outcome of the commit this may trigger (lines 352-354, 367-370);
`flushWait` — a Flush() call passes wg.Wait() (line 323), which requires the
counter to be zero;
`handshake ok` — the rendezvous on the `flush` channel: the committer receives
the request, commits (outcome `ok`, line 357), sends the acknowledgement and
returns (lines 356-362), and Flush receives it (line 325). -/
inductive SysEvent where
  | fire (e : Entry)
  | beginRes (ok : Bool)
  | recvEntry (ok : Bool)
  | tick (ok : Bool)
  | flushWait
  | handshake (ok : Bool)
deriving DecidableEq

/-- One step of the system.  `none` means the event is disabled (the
corresponding goroutine would block, or the scheduling is impossible).
Each arm is annotated with the source lines it translates. -/
def sysStep (hook : Hook) (s : SysState) : SysEvent → Option SysState
  | .fire e =>
      -- producers may call Fire at any time (src lines 248-257)
      some { s with cs := (AsyncHook.Fire hook s.cs e).1 }
  | .beginRes ok =>
      -- db.Begin() returns (src lines 332-340)
      match s.cs.phase with
      | .idle =>
          if ok then
            some { s with cs := { s.cs with phase := .draining, openTx := some 0 } }
          else
            some { s with cs := { s.cs with phase := .waitRetry, errLog := s.cs.errLog + 1 } }
      | _ => none
  | .recvEntry ok =>
      -- select case `entry := <-hook.buf` (src lines 346-351)
      match s.cs.phase, s.cs.openTx, s.cs.queue with
      | .draining, some n, e :: q =>
          some { s with cs :=
            { s.cs with
                queue := q
                attempted := s.cs.attempted ++ [e]
                openTx := some (n + 1)
                errLog := s.cs.errLog + (if ok then 0 else 1) } }
      | _, _, _ => none
  | .tick ok =>
      match s.cs.phase, s.cs.openTx with
      | .waitRetry, _ =>
          -- begin-retry wait ends (src lines 336-339)
          some { s with cs := { s.cs with phase := .idle } }
      | .draining, some n =>
          -- select case `<-hook.Ticker.C` (src lines 352-355); if entries
          -- accumulated, break Loop, commit (lines 367-370) and release the
          -- wait-group slots (lines 372-374), then loop back to Begin
          if 0 < n then
            some { s with cs :=
              { s.cs with
                  phase := .idle
                  openTx := none
                  commits := s.cs.commits + 1
                  outstanding := s.cs.outstanding - n
                  errLog := s.cs.errLog + (if ok then 0 else 1) } }
          else
            some s
      | _, _ => none
  | .flushWait =>
      -- Flush(): wg.Wait() returns only once the counter is zero (src line 323)
      match s.flusher, s.cs.outstanding with
      | .notStarted, 0 => some { s with flusher := .reqReady }
      | _, _ => none
  | .handshake ok =>
      -- select case `<-hook.flush` (src lines 356-362): commit, acknowledge,
      -- return — note: no wg.Done for entries of this final batch
      match s.flusher, s.cs.phase with
      | .reqReady, .draining =>
          some { s with
              flusher := .done
              cs := { s.cs with
                  phase := .terminated
                  openTx := none
                  commits := s.cs.commits + 1
                  finalCommit := true
                  errLog := s.cs.errLog + (if ok then 0 else 1) } }
      | _, _ => none

/-- Run a list of events; `none` as soon as one is disabled. -/
def runSys (hook : Hook) (s : SysState) : List SysEvent → Option SysState
  | [] => some s
  | ev :: evs =>
      match sysStep hook s ev with
      | none => none
      | some s1 => runSys hook s1 evs

/-- The committer state right after NewAsyncHook (src lines 223-233):
empty queue, zero counter, no transaction, 300ms ticker. -/
def cInit : CState :=
  { queue := []
    outstanding := 0
    accepted := []
    attempted := []
    openTx := none
    commits := 0
    errLog := 0
    phase := .idle
    finalCommit := false
    tickerPeriod := 300 }

/-- The system state right after NewAsyncHook. -/
def initSys : SysState := { cs := cInit, flusher := .notStarted }

/-- Direct external assignment to the exported Ticker field, as performed by
the repository's own test (`h.Ticker = time.NewTicker(100 * time.Millisecond)`
in the test file under src/unnamed): any goroutine can overwrite the timer
without going through the committer. -/
def setTicker (s : SysState) (p : Nat) : SysState :=
  { s with cs := { s.cs with tickerPeriod := p } }

/-- Number of entries in the currently open transaction, zero if none. -/
def openN (c : CState) : Nat := c.openTx.getD 0

/-!  Heap-instrumented model of newEntry, used to state the frame property:
Go entries hold their Data map by reference and filters mutate it in place,
so the claim "the caller's original map is untouched" is about aliasing.
`Heap` maps references to field mappings; an `HEntry` holds a reference. -/

/-- A heap of field mappings; the reference `r` denotes `maps[r]`. -/
structure Heap where
  maps : List Fields
deriving DecidableEq

/-- Number of allocated maps. -/
def Heap.size (h : Heap) : Nat := h.maps.length

/-- Dereference (out-of-range reads give the empty map). -/
def Heap.get (h : Heap) (r : Nat) : Fields := (h.maps.get? r).getD []

/-- In-place update of the map at `r`. -/
def Heap.set (h : Heap) (r : Nat) (fs : Fields) : Heap := ⟨h.maps.set r fs⟩

/-- Allocate a fresh map (its reference is the old `size`). -/
def Heap.alloc (h : Heap) (fs : Fields) : Heap := ⟨h.maps ++ [fs]⟩

/-- logrus.Entry with its Data map held by reference. -/
structure HEntry where
  logger : Nat
  dataRef : Nat
  time : Nat
  level : Level
  caller : Option String
  message : String
deriving DecidableEq

/-- A filter acting on the heap: it may mutate maps and returns the entry or
nil. -/
abbrev HFilter := Heap → HEntry → Heap × Option HEntry

/-- The filter loop of newEntry (src lines 293-298) in the heap model. -/
def applyFiltersH : List HFilter → Heap → HEntry → Heap × Option HEntry
  | [], h, e => (h, some e)
  | f :: fs, h, e =>
      match f h e with
      | (h1, none) => (h1, none)
      | (h1, some e1) => applyFiltersH fs h1 e1

/-- Hook.newEntry (src lines 261-300) in the heap model: build the merged map
(`data := map[string]interface{}{}` then the two merge loops), allocate it as
a fresh map, give the new entry a reference to it, and run the filters. -/
def newEntryH (extra : Fields) (filters : List HFilter) (h : Heap)
    (e : HEntry) : Heap × Option HEntry :=
  let merged := mergeFields extra (h.get e.dataRef)
  let ne : HEntry := { e with dataRef := h.size }
  applyFiltersH filters (h.alloc merged) ne

/-- blackListFilter (src lines 387-394) in the heap model: it deletes the
blacklisted keys from the map of the entry it is given, in place, and returns
that same entry. -/
def blackListFilterH (blacklist : List String) : HFilter :=
  fun h e =>
    (h.set e.dataRef (eraseAll (h.get e.dataRef) blacklist), some e)

/-- A filter only writes the map of the entry it was given. -/
def framePreserving (f : HFilter) : Prop :=
  ∀ h e r, r ≠ e.dataRef → Heap.get ((f h e).1) r = h.get r

/-- A filter returns (at most) the entry it was given: same data reference. -/
def refPreserving (f : HFilter) : Prop :=
  ∀ h e e1, (f h e).2 = some e1 → e1.dataRef = e.dataRef

/-- Synchronous Hook.Fire (src lines 235-243) in the heap model: the sink
receives the new entry's map. -/
def fireH (extra : Fields) (filters : List HFilter) (sink : List Fields)
    (ierr : Option String) (h : Heap) (e : HEntry) :
    Heap × List Fields × Option String :=
  match newEntryH extra filters h e with
  | (h1, none) => (h1, sink, none)
  | (h1, some ne) => (h1, sink ++ [h1.get ne.dataRef], ierr)

/-- AsyncHook.Fire (src lines 248-257) in the heap model: the new entry is
pushed onto the queue. -/
def asyncFireH (extra : Fields) (filters : List HFilter)
    (queue : List HEntry) (h : Heap) (e : HEntry) :
    Heap × List HEntry × Option String :=
  match newEntryH extra filters h e with
  | (h1, none) => (h1, queue, none)
  | (h1, some ne) => (h1, queue ++ [ne], none)

/-!  Concrete instances used by witnesses and counterexamples. -/

/-- A hook with no extras and no filters (`NewAsyncHook(db, map[string]interface{}{})`
as in the repository's test). -/
def hk0 : Hook := { Extra := [], filters := [] }

/-- A sample entry with empty Data. -/
def e0 : Entry :=
  { logger := 0, data := [], time := 0, level := .info, caller := none, message := "m" }

/-- Events before the Flush call in the witness run: one entry is fired,
a transaction is begun, the entry is inserted and the batch committed on a
tick. -/
def c1Evs1 : List SysEvent :=
  [.fire e0, .beginRes true, .recvEntry true, .tick true]

/-- Events after wg.Wait() returned in the witness run: the committer opens
its final transaction and the flush handshake completes. -/
def c1Evs2 : List SysEvent := [.beginRes true, .handshake true]

/-- The final state of the witness run. -/
def c1Final : SysState :=
  (runSys hk0 initSys (c1Evs1 ++ SysEvent.flushWait :: c1Evs2)).getD initSys

/-- Schedule in which an entry fired after wg.Wait() has returned sits in the
open batch when the flush signal arrives. -/
def c2Evs : List SysEvent :=
  [.beginRes true, .flushWait, .fire e0, .recvEntry true, .handshake true]

/-- A draining committer state with one entry already inserted into the open
transaction. -/
def tickA : SysState :=
  { cs := { cInit with
      phase := .draining, openTx := some 1, outstanding := 1, attempted := [e0],
      accepted := [e0] }
    flusher := .notStarted }

/-- `tickA` after the tick-triggered commit. -/
def tickB : SysState :=
  { cs := { cInit with
      phase := .idle, openTx := none, outstanding := 0, attempted := [e0],
      accepted := [e0], commits := 1 }
    flusher := .notStarted }

/-- A filter that discards every entry (like the test's `ignore` filter on an
entry that carries the key). -/
def dropAll : filter := fun _ => none

/-- A hook whose single registered filter discards everything. -/
def hk3 : Hook := { Extra := [], filters := [dropAll] }

/-- A hook with two extra fields and no filters. -/
def hk4 : Hook := { Extra := [("a", .str "x"), ("b", .str "y")], filters := [] }

/-- An entry whose Data collides with `hk4`'s extras on key "b". -/
def e4 : Entry := { e0 with data := [("b", .str "z")] }

/-- A one-map heap: the caller's original Data map at reference 0. -/
def h5 : Heap := ⟨[[("secret", .str "x"), ("keep", .str "y")]]⟩

/-- An entry whose Data is the map at reference 0 of `h5`. -/
def e5 : HEntry :=
  { logger := 0, dataRef := 0, time := 0, level := .info, caller := none, message := "m" }

/-- `hk0` after `Blacklist(["secret"])`. -/
def hk6 : Hook := hk0.Blacklist ["secret"]

/-- An entry carrying the blacklisted key. -/
def e6 : Entry := { e0 with data := [("secret", .str "x")] }

/-- An entry carrying an opaque error value (implements error, not
json.Marshaler) under a key other than logrus.ErrorKey. -/
def e7 : Entry := { e0 with data := [("cause", .errVal "boom" false)] }

/-- An entry carrying an opaque error value under logrus.ErrorKey. -/
def e7b : Entry := { e0 with data := [("error", .errVal "boom" false)] }

/-- `initSys` after the committer successfully begins its first transaction. -/
def afterBegin : SysState :=
  { initSys with cs := { cInit with phase := .draining, openTx := some 0 } }

/-!  Invariants of the transition system (used to settle the flush claims). -/

/-- Global invariant of the shared state: the wait-group counter equals the
number of queued entries plus the size of the open batch, the accepted
entries are exactly the attempted ones followed by the queued ones, and a
transaction is only open while the committer drains. -/
def SysInv (s : SysState) : Prop :=
  s.cs.outstanding = s.cs.queue.length + openN s.cs
  ∧ s.cs.accepted = s.cs.attempted ++ s.cs.queue
  ∧ (s.cs.phase ≠ .draining → s.cs.openTx = none)

/-- Invariant holding from the point wg.Wait() has returned (with no further
producer activity): nothing is outstanding, queued or sitting in an open
batch, every accepted entry has been attempted, and once Flush has returned
the committer is terminated and has committed its final transaction. -/
def PostWait (s : SysState) : Prop :=
  s.cs.outstanding = 0
  ∧ s.cs.queue = []
  ∧ openN s.cs = 0
  ∧ s.cs.attempted = s.cs.accepted
  ∧ s.flusher ≠ .notStarted
  ∧ (s.flusher = .done →
      s.cs.phase = .terminated ∧ s.cs.finalCommit = true ∧ s.cs.openTx = none)

/-!  Lemmas about the field-map operations. -/

theorem findF_insertR_self (fs : Fields) (k : String) (v : Value) :
    findF (insertR fs k v) k = some v := by
  induction fs with
  | nil => simp [insertR, findF]
  | cons p rest ih =>
    obtain ⟨k1, v1⟩ := p
    by_cases h : k1 = k
    · simp [insertR, h, findF]
    · simp [insertR, h, findF, ih]

theorem findF_insertR_ne (fs : Fields) (k k2 : String) (v : Value)
    (h : k ≠ k2) : findF (insertR fs k v) k2 = findF fs k2 := by
  induction fs with
  | nil => simp [insertR, findF, h]
  | cons p rest ih =>
    obtain ⟨k1, v1⟩ := p
    by_cases h1 : k1 = k
    · subst h1
      simp [insertR, findF, h]
    · simp [insertR, h1, findF, ih]

theorem findF_eq_none (fs : Fields) (k : String) :
    findF fs k = none ↔ k ∉ keysF fs := by
  induction fs with
  | nil => simp [findF, keysF]
  | cons p rest ih =>
    obtain ⟨k1, v1⟩ := p
    by_cases h : k1 = k
    · simp [findF, h, keysF]
    · simp [findF, h, keysF, ih, Ne.symm h]

theorem findF_copyExtra (extra : Fields) (acc : Fields) (k : String)
    (hnd : (keysF extra).Nodup) :
    findF (copyExtra acc extra) k =
      match findF extra k with
      | some v => some v
      | none => findF acc k := by
  induction extra generalizing acc with
  | nil => simp [copyExtra, findF]
  | cons p rest ih =>
    obtain ⟨k1, v1⟩ := p
    simp only [keysF, List.map_cons, List.nodup_cons] at hnd
    obtain ⟨hk1, hrest⟩ := hnd
    by_cases h : k1 = k
    · subst h
      have hnone : findF rest k1 = none := (findF_eq_none rest k1).2 hk1
      simp [copyExtra, findF, ih _ hrest, hnone, findF_insertR_self]
    · simp [copyExtra, findF, h, ih _ hrest, findF_insertR_ne _ _ _ _ h]

theorem findF_mergeData (data : Fields) (acc : Fields) (k : String)
    (hnd : (keysF data).Nodup) :
    findF (mergeData acc data) k =
      match findF data k with
      | some v => some (adjustVal k v)
      | none => findF acc k := by
  induction data generalizing acc with
  | nil => simp [mergeData, findF]
  | cons p rest ih =>
    obtain ⟨k1, v1⟩ := p
    simp only [keysF, List.map_cons, List.nodup_cons] at hnd
    obtain ⟨hk1, hrest⟩ := hnd
    by_cases h : k1 = k
    · subst h
      have hnone : findF rest k1 = none := (findF_eq_none rest k1).2 hk1
      by_cases hc : k1 = errorKey ∧ v1.isError = true ∧ v1.isMarshaler = false
      · obtain ⟨hce, hc2, hc3⟩ := hc
        subst hce
        simp [mergeData, findF, hc2, hc3, ih _ hrest, hnone,
          findF_insertR_self, adjustVal]
      · simp [mergeData, findF, hc, ih _ hrest, hnone, findF_insertR_self,
          adjustVal]
    · by_cases hc : k1 = errorKey ∧ v1.isError = true ∧ v1.isMarshaler = false
      · obtain ⟨hce, hc2, hc3⟩ := hc
        subst hce
        simp [mergeData, findF, h, hc2, hc3, ih _ hrest,
          findF_insertR_ne, findF_insertR_ne _ _ _ _ h]
      · simp [mergeData, findF, h, hc, ih _ hrest,
          findF_insertR_ne _ _ _ _ h]

theorem findF_mergeFields (extra data : Fields) (k : String)
    (hx : (keysF extra).Nodup) (hd : (keysF data).Nodup) :
    findF (mergeFields extra data) k =
      match findF data k with
      | some v => some (adjustVal k v)
      | none => findF extra k := by
  unfold mergeFields
  rw [findF_mergeData data _ k hd, findF_copyExtra extra [] k hx]
  cases findF data k <;> cases findF extra k <;> simp [findF]

theorem findF_eraseKey_self (fs : Fields) (k : String) :
    findF (eraseKey fs k) k = none := by
  induction fs with
  | nil => simp [eraseKey, findF]
  | cons p rest ih =>
    obtain ⟨k1, v1⟩ := p
    by_cases h : k1 = k
    · simp [eraseKey, h, ih]
    · simp [eraseKey, h, findF, ih]

theorem findF_eraseKey_ne (fs : Fields) (k k2 : String) (h : k ≠ k2) :
    findF (eraseKey fs k2) k = findF fs k := by
  induction fs with
  | nil => simp [eraseKey]
  | cons p rest ih =>
    obtain ⟨k1, v1⟩ := p
    by_cases h1 : k1 = k2
    · subst h1
      simp [eraseKey, findF, Ne.symm h, ih]
    · simp [eraseKey, h1, findF, ih]

theorem findF_eraseAll_none (fs : Fields) (names : List String) (k : String)
    (h : findF fs k = none) : findF (eraseAll fs names) k = none := by
  induction names generalizing fs with
  | nil => simpa [eraseAll] using h
  | cons n rest ih =>
    by_cases hn : k = n
    · subst hn
      exact ih _ (findF_eraseKey_self fs k)
    · exact ih _ ((findF_eraseKey_ne fs k n hn).trans h)

theorem findF_eraseAll_mem (fs : Fields) (names : List String) (k : String)
    (h : k ∈ names) : findF (eraseAll fs names) k = none := by
  induction names generalizing fs with
  | nil => cases h
  | cons n rest ih =>
    rw [eraseAll]
    by_cases hn : k = n
    · subst hn
      exact findF_eraseAll_none _ _ _ (findF_eraseKey_self fs k)
    · refine ih _ ?_
      cases h with
      | head => exact absurd rfl hn
      | tail _ hmem => exact hmem

theorem applyFilters_append (fs1 fs2 : List filter) (e : Entry) :
    applyFilters (fs1 ++ fs2) e =
      (applyFilters fs1 e).bind (applyFilters fs2) := by
  induction fs1 generalizing e with
  | nil => simp [applyFilters]
  | cons f fs ih =>
    cases h : f e with
    | none => simp [applyFilters, h]
    | some e1 => simp [applyFilters, h, ih]

/-!  Lemmas about the transition system. -/

theorem runSys_append (hk : Hook) (s : SysState) (l1 l2 : List SysEvent) :
    runSys hk s (l1 ++ l2) =
      (runSys hk s l1).bind (fun m => runSys hk m l2) := by
  induction l1 generalizing s with
  | nil => simp [runSys]
  | cons ev evs ih =>
    cases h : sysStep hk s ev with
    | none => simp [runSys, h]
    | some s1 => simp [runSys, h, ih]

theorem sysInv_init : SysInv initSys := by
  refine ⟨?_, ?_, ?_⟩ <;> simp [initSys, cInit, openN]

theorem stepInvPre (hk : Hook) (s s2 : SysState) (ev : SysEvent)
    (hinv : SysInv s) (hfl : s.flusher = .notStarted)
    (hev : ev ≠ SysEvent.flushWait) (hstep : sysStep hk s ev = some s2) :
    SysInv s2 ∧ s2.flusher = .notStarted := by
  obtain ⟨h1, h2, h3⟩ := hinv
  cases ev with
  | fire e =>
    simp only [sysStep] at hstep
    cases hstep
    cases hne : hk.newEntry e with
    | none =>
      refine ⟨⟨?_, ?_, ?_⟩, ?_⟩
      · simp [AsyncHook.Fire, hne, h1]
      · simp [AsyncHook.Fire, hne, h2]
      · simp only [AsyncHook.Fire, hne]
        exact h3
      · simp [AsyncHook.Fire, hne, hfl]
    | some ne =>
      refine ⟨⟨?_, ?_, ?_⟩, ?_⟩
      · simp [AsyncHook.Fire, hne, openN] at h1 ⊢
        omega
      · simp [AsyncHook.Fire, hne, h2]
      · simp only [AsyncHook.Fire, hne]
        exact h3
      · simp [AsyncHook.Fire, hne, hfl]
  | beginRes ok =>
    simp only [sysStep] at hstep
    cases hph : s.cs.phase <;> rw [hph] at hstep <;> try cases hstep
    have hop : s.cs.openTx = none := h3 (by rw [hph]; simp)
    cases ok <;> cases hstep <;>
      refine ⟨⟨?_, ?_, ?_⟩, ?_⟩ <;>
        simp [openN, hop, h2, hfl] <;> simp [openN, hop] at h1 <;> omega
  | recvEntry ok =>
    simp only [sysStep] at hstep
    cases hph : s.cs.phase <;> rw [hph] at hstep <;> try cases hstep
    cases hot : s.cs.openTx <;> rw [hot] at hstep <;> try cases hstep
    cases hq : s.cs.queue <;> rw [hq] at hstep <;> try cases hstep
    rename_i n e q
    refine ⟨⟨?_, ?_, ?_⟩, ?_⟩
    · simp [openN, hot, hq] at h1
      simp [openN]
      omega
    · rw [hq] at h2
      simp [h2]
    · intro hc
      exact absurd rfl hc
    · simpa using hfl
  | tick ok =>
    simp only [sysStep] at hstep
    cases hph : s.cs.phase <;> rw [hph] at hstep <;> try cases hstep
    · -- waitRetry: the committer goes back to Begin
      have hop : s.cs.openTx = none := h3 (by rw [hph]; simp)
      refine ⟨⟨?_, ?_, ?_⟩, ?_⟩ <;> simp [openN, hop, h1, h2, hfl]
    · -- draining
      cases hot : s.cs.openTx <;> rw [hot] at hstep <;> try cases hstep
      rename_i n
      cases n with
      | zero =>
        cases hstep
        exact ⟨⟨h1, h2, h3⟩, hfl⟩
      | succ m =>
        simp only [Nat.succ_pos, if_true, Option.some.injEq] at hstep
        subst hstep
        refine ⟨⟨?_, ?_, ?_⟩, ?_⟩
        · simp [openN, hot] at h1
          simp [openN]
          omega
        · simp [h2]
        · simp
        · simpa using hfl
  | flushWait => exact absurd rfl hev
  | handshake ok =>
    simp only [sysStep] at hstep
    rw [hfl] at hstep
    cases hstep

theorem runInvPre (hk : Hook) (evs : List SysEvent) (s sf : SysState)
    (hinv : SysInv s) (hfl : s.flusher = .notStarted)
    (hw : SysEvent.flushWait ∉ evs) (hrun : runSys hk s evs = some sf) :
    SysInv sf ∧ sf.flusher = .notStarted := by
  induction evs generalizing s with
  | nil =>
    simp only [runSys] at hrun
    cases hrun
    exact ⟨hinv, hfl⟩
  | cons ev rest ih =>
    simp only [runSys] at hrun
    cases hstep : sysStep hk s ev with
    | none => rw [hstep] at hrun; cases hrun
    | some s1 =>
      rw [hstep] at hrun
      have hne : ev ≠ SysEvent.flushWait := by
        intro h
        exact hw (h ▸ List.mem_cons_self _ _)
      obtain ⟨hinv1, hfl1⟩ := stepInvPre hk s s1 ev ⟨hinv.1, hinv.2.1, hinv.2.2⟩ hfl hne hstep
      exact ih s1 hinv1 hfl1 (fun h => hw (List.mem_cons_of_mem _ h)) hrun

theorem stepPostWait (hk : Hook) (s s2 : SysState) (ev : SysEvent)
    (hpw : PostWait s) (hnf : ∀ e, ev ≠ SysEvent.fire e)
    (hstep : sysStep hk s ev = some s2) : PostWait s2 := by
  obtain ⟨p1, p2, p3, p4, p5, p6⟩ := hpw
  cases ev with
  | fire e => exact absurd rfl (hnf e)
  | beginRes ok =>
    simp only [sysStep] at hstep
    cases hph : s.cs.phase <;> rw [hph] at hstep <;> try cases hstep
    have hnd : s.flusher ≠ .done := by
      intro hd
      have hp := (p6 hd).1
      rw [hph] at hp
      cases hp
    cases ok
    · cases hstep
      exact ⟨p1, p2, p3, p4, p5, fun hd => absurd hd hnd⟩
    · cases hstep
      exact ⟨p1, p2, by simp [openN], p4, p5, fun hd => absurd hd hnd⟩
  | recvEntry ok =>
    simp only [sysStep] at hstep
    cases hph : s.cs.phase <;> rw [hph] at hstep <;> try cases hstep
    cases hot : s.cs.openTx <;> rw [hot] at hstep <;> try cases hstep
    rw [p2] at hstep
    cases hstep
  | tick ok =>
    simp only [sysStep] at hstep
    cases hph : s.cs.phase <;> rw [hph] at hstep <;> try cases hstep
    · -- waitRetry → idle
      have hnd : s.flusher ≠ .done := by
        intro hd
        have hp := (p6 hd).1
        rw [hph] at hp
        cases hp
      exact ⟨p1, p2, p3, p4, p5, fun hd => absurd hd hnd⟩
    · -- draining with an empty open batch: the select keeps draining
      cases hot : s.cs.openTx <;> rw [hot] at hstep <;> try cases hstep
      rename_i n
      have hn0 : n = 0 := by simpa [openN, hot] using p3
      subst hn0
      cases hstep
      exact ⟨p1, p2, p3, p4, p5, p6⟩
  | flushWait =>
    cases hfl : s.flusher
    · exact absurd hfl p5
    · simp only [sysStep] at hstep
      rw [hfl] at hstep
      cases hstep
    · simp only [sysStep] at hstep
      rw [hfl] at hstep
      cases hstep
  | handshake ok =>
    simp only [sysStep] at hstep
    cases hfl : s.flusher <;> rw [hfl] at hstep <;> try cases hstep
    cases hph : s.cs.phase <;> rw [hph] at hstep <;> try cases hstep
    exact ⟨p1, p2, by simp [openN], p4, by simp, fun _ => ⟨rfl, rfl, rfl⟩⟩

theorem runPostWait (hk : Hook) (evs : List SysEvent) (s sf : SysState)
    (hpw : PostWait s) (hnf : ∀ e, SysEvent.fire e ∉ evs)
    (hrun : runSys hk s evs = some sf) : PostWait sf := by
  induction evs generalizing s with
  | nil =>
    simp only [runSys] at hrun
    cases hrun
    exact hpw
  | cons ev rest ih =>
    simp only [runSys] at hrun
    cases hstep : sysStep hk s ev with
    | none => rw [hstep] at hrun; cases hrun
    | some s1 =>
      rw [hstep] at hrun
      have hev : ∀ e, ev ≠ SysEvent.fire e := by
        intro e h
        exact hnf e (h ▸ List.mem_cons_self _ _)
      exact ih s1 (stepPostWait hk s s1 ev ⟨hpw.1, hpw.2.1, hpw.2.2.1,
        hpw.2.2.2.1, hpw.2.2.2.2.1, hpw.2.2.2.2.2⟩ hev hstep)
        (fun e h => hnf e (List.mem_cons_of_mem _ h)) hrun

theorem terminatedPermanent (hk : Hook) (s : SysState)
    (hterm : s.cs.phase = .terminated) (hfl : s.flusher = .done)
    (ev : SysEvent) (s2 : SysState) (hstep : sysStep hk s ev = some s2) :
    s2.cs.phase = .terminated ∧ s2.cs.commits = s.cs.commits
    ∧ s2.cs.openTx = s.cs.openTx := by
  cases ev with
  | fire e =>
    simp only [sysStep] at hstep
    cases hstep
    cases hne : hk.newEntry e with
    | none => simp [AsyncHook.Fire, hne, hterm]
    | some ne => simp [AsyncHook.Fire, hne, hterm]
  | beginRes ok =>
    simp only [sysStep] at hstep
    rw [hterm] at hstep
    cases hstep
  | recvEntry ok =>
    simp only [sysStep] at hstep
    rw [hterm] at hstep
    cases hstep
  | tick ok =>
    simp only [sysStep] at hstep
    rw [hterm] at hstep
    cases hstep
  | flushWait =>
    simp only [sysStep] at hstep
    rw [hfl] at hstep
    cases hstep
  | handshake ok =>
    simp only [sysStep] at hstep
    rw [hfl] at hstep
    cases hstep

/-- Claim C1: every entry accepted by AsyncHook.Fire before a Flush() call
returns has been handed to the sink (an insert was attempted) by the time
Flush() returns, the wait-group counter is zero, and the committer has
committed its final transaction, acknowledged the flush and exited
permanently: no event can make it open a transaction or commit again.  The
hypotheses say: the run starts at the constructed hook state, it contains the
point at which wg.Wait() returned inside Flush (`flushWait`, its first
occurrence), no producer fires after that point (the spec declares Fire after
the terminal flush undefined), and Flush has returned (`flusher = done`). -/
theorem flush_drains_and_terminates (hk : Hook) (evs1 evs2 : List SysEvent)
    (s : SysState)
    (hw1 : SysEvent.flushWait ∉ evs1)
    (hrun : runSys hk initSys (evs1 ++ SysEvent.flushWait :: evs2) = some s)
    (hnf : ∀ e, SysEvent.fire e ∉ evs2)
    (hdone : s.flusher = .done) :
    s.cs.attempted = s.cs.accepted
    ∧ s.cs.outstanding = 0
    ∧ s.cs.phase = .terminated
    ∧ s.cs.finalCommit = true
    ∧ (∀ ev s2, sysStep hk s ev = some s2 →
        s2.cs.phase = .terminated ∧ s2.cs.commits = s.cs.commits
        ∧ s2.cs.openTx = none) := by
  rw [runSys_append] at hrun
  cases hA : runSys hk initSys evs1 with
  | none => rw [hA] at hrun; cases hrun
  | some sA =>
    rw [hA] at hrun
    simp only [Option.some_bind] at hrun
    obtain ⟨hinvA, hflA⟩ := runInvPre hk evs1 initSys sA sysInv_init rfl hw1 hA
    simp only [runSys] at hrun
    cases hstepW : sysStep hk sA SysEvent.flushWait with
    | none => rw [hstepW] at hrun; cases hrun
    | some sB =>
      rw [hstepW] at hrun
      have hext : sA.cs.outstanding = 0 ∧ sB = { sA with flusher := .reqReady } := by
        simp only [sysStep] at hstepW
        rw [hflA] at hstepW
        cases ho : sA.cs.outstanding <;> rw [ho] at hstepW <;> cases hstepW
        exact ⟨rfl, rfl⟩
      obtain ⟨hzero, hsB⟩ := hext
      subst hsB
      have h0 : 0 = sA.cs.queue.length + openN sA.cs := hzero ▸ hinvA.1
      have hqnil : sA.cs.queue = [] := by
        have : sA.cs.queue.length = 0 := by omega
        exact List.length_eq_zero.mp this
      have hopen0 : openN sA.cs = 0 := by omega
      have hpwB : PostWait { sA with flusher := .reqReady } := by
        refine ⟨hzero, hqnil, hopen0, ?_, ?_, ?_⟩
        · rw [hinvA.2.1, hqnil, List.append_nil]
        · intro h
          cases h
        · intro h
          cases h
      have hpwS := runPostWait hk evs2 _ s hpwB hnf hrun
      have hfinal := hpwS.2.2.2.2.2 hdone
      refine ⟨hpwS.2.2.2.1, hpwS.1, hfinal.1, hfinal.2.1, ?_⟩
      intro ev s2 hstep
      have hperm := terminatedPermanent hk s hfinal.1 hdone ev s2 hstep
      exact ⟨hperm.1, hperm.2.1, hperm.2.2.trans hfinal.2.2⟩

/-- Witness for C1: the concrete run `c1Evs1 ++ flushWait :: c1Evs2` — fire
one entry, begin, insert, commit on a tick, wait, final begin and flush
handshake — satisfies every hypothesis, and the conclusions hold at its
final state. -/
theorem flush_drains_and_terminates_witness :
    c1Final.cs.attempted = c1Final.cs.accepted
    ∧ c1Final.cs.outstanding = 0
    ∧ c1Final.cs.phase = Phase.terminated
    ∧ c1Final.cs.finalCommit = true := by
  have h := flush_drains_and_terminates hk0 c1Evs1 c1Evs2 c1Final
    (by decide) rfl
    (by
      intro e h
      simp [c1Evs2] at h)
    rfl
  exact ⟨h.1, h.2.1, h.2.2.1, h.2.2.2.1⟩

/-- Counterexample to claim C2: in the schedule `c2Evs` a producer fires one
entry after wg.Wait() has returned but before the committer receives the
flush signal.  The entry is inserted into the open transaction, the flush
handshake commits that final batch and the committer exits — but the
outstanding counter is still 1: the flush path of AsyncHook.fire
(src lines 356-362) returns without calling wg.Done() for the entries of the
final batch, so they are not "decremented exactly once per entry of the
batch". -/
theorem flush_batch_not_decremented_cex :
    (runSys hk0 initSys c2Evs).map
        (fun s => (s.cs.outstanding, s.cs.attempted, s.cs.commits, s.cs.phase))
      = some (1, [e0], 1, Phase.terminated) := rfl

/-- Claim C2 (amended): for every batch the committer closes on a timer tick,
the outstanding counter is decremented exactly once per entry of the batch
regardless of commit outcome, the commit error being only logged to the error
stream; the final batch closed on the flush path is committed (its error also
only logged) but its entries are never decremented — in disciplined use that
batch is empty, because the flush signal is only sent once the counter
reached zero. -/
theorem tick_batch_decrement_amended (hk : Hook) (s : SysState) (n : Nat)
    (ok : Bool) (hph : s.cs.phase = .draining)
    (hot : s.cs.openTx = some (n + 1)) :
    sysStep hk s (.tick ok)
      = some { s with cs := { s.cs with
          phase := .idle
          openTx := none
          commits := s.cs.commits + 1
          outstanding := s.cs.outstanding - (n + 1)
          errLog := s.cs.errLog + (if ok then 0 else 1) } }
    ∧ ∀ s2, sysStep hk s (.handshake ok) = some s2 →
        s2.cs.outstanding = s.cs.outstanding := by
  constructor
  · simp only [sysStep, hph, hot]
    simp [Nat.succ_pos]
  · intro s2 hstep
    simp only [sysStep] at hstep
    cases hfl : s.flusher <;> rw [hfl] at hstep <;> try cases hstep
    cases hph2 : s.cs.phase <;> rw [hph2] at hstep <;> try cases hstep
    rfl

/-- Witness for C2 (amended): the tick-commit equation evaluated at a
concrete draining state holding one entry. -/
theorem tick_batch_decrement_witness :
    sysStep hk0 tickA (SysEvent.tick true) = some tickB :=
  (tick_batch_decrement_amended hk0 tickA 0 true rfl rfl).1

/-- Claim C3: the filter chain runs in registration order, each filter
receiving the entry produced by the previous one (the chain over an appended
list is the bind of the chains), and the first filter returning the discard
marker makes newEntry return nil, upon which the synchronous Fire writes
nothing to the sink and returns nil, and the asynchronous Fire pushes nothing
and returns nil. -/
theorem filter_chain_order_and_discard :
    (∀ (fs1 fs2 : List filter) (e : Entry),
      applyFilters (fs1 ++ fs2) e = (applyFilters fs1 e).bind (applyFilters fs2))
    ∧ ∀ (hook : Hook) (fs1 : List filter) (f : filter) (fs2 : List filter)
        (e me : Entry) (sink : List Entry) (ierr : Option String) (st : CState),
        hook.filters = fs1 ++ f :: fs2 →
        applyFilters fs1 (mergeEntry hook e) = some me →
        f me = none →
        hook.newEntry e = none
        ∧ Hook.Fire hook sink ierr e = (sink, none)
        ∧ AsyncHook.Fire hook st e = (st, none) := by
  constructor
  · exact applyFilters_append
  · intro hook fs1 f fs2 e me sink ierr st hfs h1 h2
    have hnone : hook.newEntry e = none := by
      unfold Hook.newEntry
      rw [hfs, applyFilters_append, h1]
      simp [applyFilters, h2]
    exact ⟨hnone, by simp [Hook.Fire, hnone], by simp [AsyncHook.Fire, hnone]⟩

/-- Witness for C3: a chain whose only filter discards everything. -/
theorem filter_chain_order_and_discard_witness :
    hk3.newEntry e0 = none
    ∧ Hook.Fire hk3 [] none e0 = ([], none)
    ∧ AsyncHook.Fire hk3 cInit e0 = (cInit, none) :=
  filter_chain_order_and_discard.2 hk3 [] dropAll [] e0 (mergeEntry hk3 e0)
    [] none cInit rfl rfl rfl

/-- Claim C4: the map newEntry builds is Extra copied first, then the entry's
own Data overlaid: on a key absent from the entry's Data the result is
Extra's binding, and on a key the entry's Data carries, the entry's own value
wins (stored via `adjustVal`, which is the identity except for the
error-wrapping of C7 at logrus.ErrorKey). -/
theorem merge_extra_then_data_precedence (hook : Hook) (e : Entry)
    (k : String)
    (hx : (keysF hook.Extra).Nodup) (hd : (keysF e.data).Nodup) :
    (findF e.data k = none →
      findF (mergeEntry hook e).data k = findF hook.Extra k)
    ∧ ∀ v, findF e.data k = some v →
      findF (mergeEntry hook e).data k = some (adjustVal k v) := by
  constructor
  · intro h
    show findF (mergeFields hook.Extra e.data) k = _
    rw [findF_mergeFields hook.Extra e.data k hx hd, h]
  · intro v h
    show findF (mergeFields hook.Extra e.data) k = _
    rw [findF_mergeFields hook.Extra e.data k hx hd, h]

/-- Witness for C4: on the colliding key "b" the entry's own value wins over
the hook's extra. -/
theorem merge_extra_then_data_precedence_witness :
    findF (mergeEntry hk4 e4).data "b" = some (Value.str "z") :=
  (merge_extra_then_data_precedence hk4 e4 "b" (by decide) (by decide)).2
    (Value.str "z") rfl

/-!  Heap lemmas for the frame property. -/

theorem list_get?_append_ne {α : Type} (l : List α) (x : α) (j : Nat)
    (h : j ≠ l.length) : (l ++ [x]).get? j = l.get? j := by
  induction l generalizing j with
  | nil =>
    cases j with
    | zero => exact absurd rfl h
    | succ m => rfl
  | cons a l ih =>
    cases j with
    | zero => rfl
    | succ m => exact ih m (fun hm => h (by simp [hm]))

theorem list_get?_set_ne {α : Type} (l : List α) (i j : Nat) (a : α)
    (h : i ≠ j) : (l.set i a).get? j = l.get? j := by
  induction l generalizing i j with
  | nil => rfl
  | cons b l ih =>
    cases i with
    | zero =>
      cases j with
      | zero => exact absurd rfl h
      | succ m => rfl
    | succ m =>
      cases j with
      | zero => rfl
      | succ m2 => exact ih m m2 (fun hm => h (by simp [hm]))

theorem heap_get_alloc_ne (h : Heap) (fs : Fields) (r : Nat)
    (hr : r ≠ h.size) : (h.alloc fs).get r = h.get r := by
  simp only [Heap.get, Heap.alloc]
  rw [list_get?_append_ne h.maps fs r hr]

theorem heap_get_set_ne (h : Heap) (r r2 : Nat) (fs : Fields)
    (hr : r2 ≠ r) : (h.set r2 fs).get r = h.get r := by
  simp only [Heap.get, Heap.set]
  rw [list_get?_set_ne h.maps r2 r fs hr]

theorem blackListFilterH_frame (bl : List String) :
    framePreserving (blackListFilterH bl) := by
  intro h e r hr
  exact heap_get_set_ne h r e.dataRef _ (Ne.symm hr)

theorem blackListFilterH_ref (bl : List String) :
    refPreserving (blackListFilterH bl) := by
  intro h e e1 heq
  simp only [blackListFilterH] at heq
  cases heq
  rfl

theorem applyFiltersH_frame (filters : List HFilter) (h : Heap) (e : HEntry)
    (rt : Nat)
    (hf : ∀ f ∈ filters, framePreserving f ∧ refPreserving f)
    (hne : e.dataRef ≠ rt) :
    ((applyFiltersH filters h e).1).get rt = h.get rt
    ∧ ∀ e1, (applyFiltersH filters h e).2 = some e1 →
        e1.dataRef = e.dataRef := by
  induction filters generalizing h e with
  | nil =>
    exact ⟨rfl, fun e1 h1 => by cases h1; rfl⟩
  | cons f fs ih =>
    have hf0 := hf f (List.mem_cons_self f fs)
    have hfs : ∀ g ∈ fs, framePreserving g ∧ refPreserving g :=
      fun g hg => hf g (List.mem_cons_of_mem f hg)
    have hframe : ((f h e).1).get rt = h.get rt := hf0.1 h e rt (Ne.symm hne)
    cases hfe : f h e with
    | mk h1 oe =>
      rw [hfe] at hframe
      cases oe with
      | none =>
        simp only [applyFiltersH, hfe]
        exact ⟨hframe, fun e2 hc => by cases hc⟩
      | some e1 =>
        have href : e1.dataRef = e.dataRef := hf0.2 h e e1 (by rw [hfe])
        have hne1 : e1.dataRef ≠ rt := by rw [href]; exact hne
        have hih := ih h1 e1 hfs hne1
        simp only [applyFiltersH, hfe]
        exact ⟨hih.1.trans hframe, fun e2 h2 => (hih.2 e2 h2).trans href⟩

/-- Claim C5: every Fire call (synchronous or asynchronous) leaves the
caller's original entry and its Data map unchanged: newEntry allocates a
fresh merged map, the entry it threads through the filters points at that
copy (never at the caller's map), and all filter mutations — including
blacklist key deletion, which is frame- and reference-preserving — touch
only the copy. -/
theorem fire_preserves_caller_entry (extra : Fields) (filters : List HFilter)
    (h : Heap) (e : HEntry) (sink : List Fields) (ierr : Option String)
    (queue : List HEntry)
    (hv : e.dataRef < h.size)
    (hf : ∀ f ∈ filters, framePreserving f ∧ refPreserving f) :
    ((newEntryH extra filters h e).1).get e.dataRef = h.get e.dataRef
    ∧ (∀ ne, (newEntryH extra filters h e).2 = some ne →
        ne.dataRef ≠ e.dataRef)
    ∧ ((fireH extra filters sink ierr h e).1).get e.dataRef = h.get e.dataRef
    ∧ ((asyncFireH extra filters queue h e).1).get e.dataRef
        = h.get e.dataRef
    ∧ ∀ bl, framePreserving (blackListFilterH bl)
        ∧ refPreserving (blackListFilterH bl) := by
  have hfresh : ({ e with dataRef := h.size } : HEntry).dataRef ≠ e.dataRef :=
    Ne.symm (Nat.ne_of_lt hv)
  have hmain := applyFiltersH_frame filters
    (h.alloc (mergeFields extra (h.get e.dataRef)))
    { e with dataRef := h.size } e.dataRef hf hfresh
  have h1 : ((newEntryH extra filters h e).1).get e.dataRef
      = h.get e.dataRef := by
    show ((applyFiltersH filters _ _).1).get e.dataRef = _
    rw [hmain.1]
    exact heap_get_alloc_ne h _ e.dataRef (Nat.ne_of_lt hv)
  refine ⟨h1, ?_, ?_, ?_, fun bl => ⟨blackListFilterH_frame bl, blackListFilterH_ref bl⟩⟩
  · intro ne hsome
    have := hmain.2 ne hsome
    rw [this]
    exact Ne.symm (Nat.ne_of_lt hv)
  · unfold fireH
    cases hne2 : newEntryH extra filters h e with
    | mk hh oe =>
      rw [hne2] at h1
      cases oe <;> simpa using h1
  · unfold asyncFireH
    cases hne2 : newEntryH extra filters h e with
    | mk hh oe =>
      rw [hne2] at h1
      cases oe <;> simpa using h1

/-- Witness for C5: a blacklist filter deletes "secret" from the fresh copy
while the caller's map at reference 0 keeps both keys. -/
theorem fire_preserves_caller_entry_witness :
    ((newEntryH [] [blackListFilterH ["secret"]] h5 e5).1).get 0
      = [("secret", Value.str "x"), ("keep", Value.str "y")] := by
  have h := fire_preserves_caller_entry [] [blackListFilterH ["secret"]]
    h5 e5 [] none [] (by decide)
    (fun f hmem => by
      cases hmem with
      | head => exact ⟨blackListFilterH_frame _, blackListFilterH_ref _⟩
      | tail _ hh => cases hh)
  exact h.1

/-- Claim C6: after Blacklist(ks) every key of ks is absent from the field
mapping of any entry newEntry lets through (hence from every mapping
delivered to the sink), and the blacklist filter itself never returns the
discard marker. -/
theorem blacklist_absent_and_never_discards (hook : Hook) (ks : List String)
    (K : String) (e ne : Entry)
    (hmem : K ∈ ks)
    (hne : (hook.Blacklist ks).newEntry e = some ne) :
    findF ne.data K = none
    ∧ ∀ (ks2 : List String) (e2 : Entry),
        (blackListFilter ks2 e2).isSome = true := by
  constructor
  · unfold Hook.newEntry at hne
    rw [show (hook.Blacklist ks).filters
        = hook.filters ++ [blackListFilter ks] from rfl,
      applyFilters_append] at hne
    cases hmid : applyFilters hook.filters
        (mergeEntry (hook.Blacklist ks) e) with
    | none => rw [hmid] at hne; cases hne
    | some me =>
      rw [hmid] at hne
      simp only [Option.some_bind, applyFilters, blackListFilter] at hne
      cases hne
      exact findF_eraseAll_mem me.data ks K hmem
  · intro ks2 e2
    simp [blackListFilter]

/-- Witness for C6: blacklisting "secret" removes it from the delivered map. -/
theorem blacklist_absent_and_never_discards_witness :
    findF ({ e6 with data := ([] : Fields) } : Entry).data "secret" = none :=
  (blacklist_absent_and_never_discards hk0 ["secret"] "secret" e6
    { e6 with data := ([] : Fields) } (by decide) rfl).1

/-- Counterexample to claim C7: an opaque error value (implements error, not
json.Marshaler) stored under the key "cause" — any key other than
logrus.ErrorKey — is delivered unchanged by the merge step: it is not
replaced by the serializable wrapper, because the wrapping at
src/postgresql_hook.go lines 274-280 is guarded by `k == logrus.ErrorKey`. -/
theorem error_wrap_only_error_key_cex :
    (hk0.newEntry e7).map (fun ne => findF ne.data "cause")
      = some (some (Value.errVal "boom" false))
    ∧ (Value.errVal "boom" false).isError = true
    ∧ (Value.errVal "boom" false).isMarshaler = false
    ∧ Value.errVal "boom" false
        ≠ newMarshalableError (Value.errVal "boom" false) := by
  refine ⟨rfl, rfl, rfl, ?_⟩
  decide

/-- Claim C7 (amended): the merge step replaces an error value that does not
provide its own JSON serialization with the serializable wrapper carrying its
message only when the value sits under logrus.ErrorKey; under any other key
the value is stored as-is, error or not. -/
theorem error_wrap_error_key_amended (hook : Hook) (e : Entry) (v : Value)
    (hx : (keysF hook.Extra).Nodup) (hd : (keysF e.data).Nodup) :
    (findF e.data errorKey = some v → v.isError = true →
      v.isMarshaler = false →
      findF (mergeEntry hook e).data errorKey
        = some (newMarshalableError v))
    ∧ ∀ k, k ≠ errorKey → findF e.data k = some v →
      findF (mergeEntry hook e).data k = some v := by
  constructor
  · intro hv he hm
    show findF (mergeFields hook.Extra e.data) errorKey = _
    rw [findF_mergeFields hook.Extra e.data errorKey hx hd, hv]
    simp [adjustVal, he, hm]
  · intro k hk hv
    show findF (mergeFields hook.Extra e.data) k = _
    rw [findF_mergeFields hook.Extra e.data k hx hd, hv]
    simp [adjustVal, hk]

/-- Witness for C7 (amended): the same opaque error value under
logrus.ErrorKey is wrapped. -/
theorem error_wrap_error_key_witness :
    findF (mergeEntry hk0 e7b).data errorKey
      = some (newMarshalableError (Value.errVal "boom" false)) :=
  (error_wrap_error_key_amended hk0 e7b (Value.errVal "boom" false)
    (by decide) (by decide)).1 rfl rfl rfl

/-- Claim C8: AsyncHook.Fire returns nil for every entry — both when a filter
discards it (src line 252) and when it is enqueued (src line 256); no sink or
transaction failure reaches the asynchronous Fire return value (those are
only written to stderr by the committer). -/
theorem async_fire_always_nil (hook : Hook) (s : CState) (e : Entry) :
    (AsyncHook.Fire hook s e).2 = none := by
  cases h : hook.newEntry e <;> simp [AsyncHook.Fire, h]

/-- Counterexample to claim C9: the committer's timer is not owned by the
committer task and is not reconfigured through any channel — the code has no
FlushEvery operation and no reconfiguration channel (the select at
src/postgresql_hook.go lines 345-363 has exactly the three cases buf, Ticker
and flush), while `Ticker` is an exported field that the repository's own
test overwrites directly from another goroutine
(`h.Ticker = time.NewTicker(100 * time.Millisecond)`): `setTicker` models
that assignment, and it changes the period from 300 to 100 without any
committer event. -/
theorem ticker_direct_mutation_cex :
    (setTicker initSys 100).cs.tickerPeriod = 100
    ∧ initSys.cs.tickerPeriod = 300
    ∧ (setTicker initSys 100).cs.tickerPeriod
        ≠ initSys.cs.tickerPeriod := by
  refine ⟨rfl, rfl, ?_⟩
  decide

/-- Claim C9 (amended): the committer's select loop never changes the timer
period — no event of its alphabet (queue receive, tick, begin result, flush
handshake, producer fire) alters it, there being no reconfiguration case —
and the only way the period changes is the direct external assignment to the
exported Ticker field, as the repository's test performs. -/
theorem ticker_owned_externally_amended :
    (∀ (hk : Hook) (s : SysState) (ev : SysEvent) (s2 : SysState),
      sysStep hk s ev = some s2 → s2.cs.tickerPeriod = s.cs.tickerPeriod)
    ∧ ∀ (s : SysState) (p : Nat), (setTicker s p).cs.tickerPeriod = p := by
  constructor
  · intro hk s ev s2 hstep
    cases ev with
    | fire e =>
      simp only [sysStep] at hstep
      cases hstep
      cases hne : hk.newEntry e <;> simp [AsyncHook.Fire, hne]
    | beginRes ok =>
      simp only [sysStep] at hstep
      cases hph : s.cs.phase <;> rw [hph] at hstep <;> try cases hstep
      cases ok <;> cases hstep <;> rfl
    | recvEntry ok =>
      simp only [sysStep] at hstep
      cases hph : s.cs.phase <;> rw [hph] at hstep <;> try cases hstep
      cases hot : s.cs.openTx <;> rw [hot] at hstep <;> try cases hstep
      cases hq : s.cs.queue <;> rw [hq] at hstep <;> try cases hstep
      rfl
    | tick ok =>
      simp only [sysStep] at hstep
      cases hph : s.cs.phase <;> rw [hph] at hstep <;> try cases hstep
      · rfl
      · cases hot : s.cs.openTx <;> rw [hot] at hstep <;> try cases hstep
        rename_i n
        cases n with
        | zero =>
          cases hstep
          rfl
        | succ m =>
          simp only [Nat.succ_pos, if_true, Option.some.injEq] at hstep
          subst hstep
          rfl
    | flushWait =>
      simp only [sysStep] at hstep
      cases hfl : s.flusher <;> rw [hfl] at hstep <;> try cases hstep
      cases ho : s.cs.outstanding <;> rw [ho] at hstep <;> cases hstep
      rfl
    | handshake ok =>
      simp only [sysStep] at hstep
      cases hfl : s.flusher <;> rw [hfl] at hstep <;> try cases hstep
      cases hph : s.cs.phase <;> rw [hph] at hstep <;> try cases hstep
      rfl
  · intro s p
    rfl

/-- Witness for C9 (amended): a successful begin step leaves the period at
its initial 300ms. -/
theorem ticker_owned_externally_witness :
    afterBegin.cs.tickerPeriod = initSys.cs.tickerPeriod :=
  ticker_owned_externally_amended.1 hk0 initSys (SysEvent.beginRes true)
    afterBegin rfl

/-- Claim C10: Levels() returns exactly the five levels Fatal, Error, Warn,
Info and Debug; Panic (and Trace) are not among them, and logrus delivers an
entry to a hook only for the levels the hook returns, so entries at those
levels never reach the sink. -/
theorem levels_exactly_five (hook : Hook) :
    Hook.Levels hook
      = [Level.fatal, Level.error, Level.warn, Level.info, Level.debug]
    ∧ Level.panic ∉ Hook.Levels hook
    ∧ Level.trace ∉ Hook.Levels hook := by
  refine ⟨rfl, ?_, ?_⟩ <;> simp [Hook.Levels]
